import Mathlib

/-!
Verification of the search/thread-coordination core of the Stockfish
headers (`src/search.h`, `src/thread.h`, `src/uci.h`).

The headers declare the data model (`RootMove`, `LimitsType`, the
`ThreadPool` counters) together with inline member functions; those inline
bodies are embedded below directly from the source.  The out-of-line
bodies (`Worker::search`, `Worker::qsearch`, `ThreadPool::start_thinking`)
are not part of the repository snapshot, so the corresponding behaviour is
modelled from the specification; each such definition is marked
`Modelled from the spec:` in its doc comment.
-/

namespace Stockfish

/-- A chess move.  `Move` lives in the external `types.h` collaborator
(16-bit encoded); the search core only ever copies moves and compares them
for equality, so the raw encoding is all that is needed. -/
structure Move where
  data : Nat
deriving DecidableEq

/-- `VALUE_INFINITE` from the external `types.h`: the largest search
value (`using Value = int`, thread.h:37 — search values are embedded as
`Int`; likewise `TimePoint` is `int64_t` and `Depth` is `int`, and the
operations the claims exercise never overflow those widths). -/
def VALUE_INFINITE : Int := 32001

/-- The two colors, `COLOR_NB = 2` (external `types.h`). -/
inductive Color where
  | WHITE
  | BLACK
deriving DecidableEq

/-- `RootMove` (search.h:87-108).  Field order and in-class initializers
follow the source; `tbScore` has no initializer in the source, which is
modelled by `Option` with `none` standing for the indeterminate value. -/
structure RootMove where
  score : Int := -VALUE_INFINITE
  previousScore : Int := -VALUE_INFINITE
  averageScore : Int := -VALUE_INFINITE
  uciScore : Int := -VALUE_INFINITE
  scoreLowerbound : Bool := false
  scoreUpperbound : Bool := false
  selDepth : Int := 0
  tbRank : Int := 0
  tbScore : Option Int := none
  pv : List Move
deriving DecidableEq

/-- The constructor `explicit RootMove(Move m) : pv(1, m) {}`
(search.h:89-90): the PV is the one-element vector `[m]` and every other
field keeps its in-class initializer. -/
def RootMove.ofMove (m : Move) : RootMove :=
  { pv := [m] }

/-- `RootMove::operator<` (search.h:94-96), verbatim:
`return m.score != score ? m.score < score : m.previousScore < previousScore;`
with `a` playing `*this` and `m` the argument.  Sorts in descending
order. -/
def RootMove.lt (a m : RootMove) : Bool :=
  if m.score ≠ a.score then decide (m.score < a.score)
  else decide (m.previousScore < a.previousScore)

/-- `RootMove::operator==(const Move&)` (search.h:92):
`return pv[0] == m;`.  `pv[0]` on an empty `std::vector` is out of
bounds, modelled by `Option`: `none` when `pv` is empty. -/
def RootMove.eqMove (rm : RootMove) (m : Move) : Option Bool :=
  rm.pv.head?.map fun h => h == m

/-- The non-strict relation `¬ (b < a)` with respect to which
`std::stable_sort` with comparator `RootMove::operator<` leaves the
RootMove list sorted. -/
def RootMoveLe (a b : RootMove) : Prop :=
  RootMove.lt b a = false

instance : DecidableRel RootMoveLe := fun a b => by
  unfold RootMoveLe
  infer_instance

instance : IsTotal RootMove RootMoveLe := by
  constructor
  intro a b
  unfold RootMoveLe RootMove.lt
  split <;> split <;> simp only [decide_eq_false_iff_not] <;> omega

instance : IsTrans RootMove RootMoveLe := by
  constructor
  intro a b c hab hbc
  unfold RootMoveLe RootMove.lt at hab hbc ⊢
  split at hab <;> split at hbc <;> split <;>
    simp only [decide_eq_false_iff_not] at hab hbc ⊢ <;> omega

/-- Stable sorting of a RootMove list with `RootMove::operator<`, as
`std::stable_sort(rootMoves.begin(), rootMoves.end())` does between
iterations. -/
def sortRootMoves (l : List RootMove) : List RootMove :=
  List.insertionSort RootMoveLe l

/-- `LimitsType` (search.h:116-131).  The `time`/`inc` arrays indexed by
color become functions on `Color`; `startTime`, which the default
constructor leaves uninitialized, is an `Option` with `none` standing for
the indeterminate value. -/
structure LimitsType where
  searchmoves : List Move
  time : Color → Int
  inc : Color → Int
  npmsec : Int
  movetime : Int
  startTime : Option Int
  movestogo : Int
  depth : Int
  mate : Int
  perft : Int
  infinite : Int
  nodes : Int

/-- The default constructor `LimitsType()` (search.h:119-123): zeroes
every field except `startTime` (and `searchmoves`, whose default vector
construction makes it empty). -/
def LimitsType.default : LimitsType :=
  { searchmoves := []
    time := fun _ => 0
    inc := fun _ => 0
    npmsec := 0
    movetime := 0
    startTime := none
    movestogo := 0
    depth := 0
    mate := 0
    perft := 0
    infinite := 0
    nodes := 0 }

/-- `LimitsType::use_time_management` (search.h:125):
`return time[WHITE] || time[BLACK];` — C++ truthiness of an integer is
being nonzero. -/
def LimitsType.use_time_management (l : LimitsType) : Bool :=
  decide (l.time Color.WHITE ≠ 0) || decide (l.time Color.BLACK ≠ 0)

/-- The per-thread atomic counters of `Search::Worker` (search.h:163)
that `ThreadPool::accumulate` reads: `std::atomic<uint64_t> nodes,
tbHits`.  A loaded value is a `uint64_t`, i.e. a natural below `2^64`. -/
structure ThreadCounters where
  nodes : Nat
  tbHits : Nat
deriving DecidableEq

/-- `2^64`, the modulus of `uint64_t` arithmetic. -/
def U64_MOD : Nat := 2 ^ 64

/-- The `ThreadPool` state the counter claims touch: its list of
threads (thread.h:125). -/
structure ThreadPool where
  threads : List ThreadCounters

/-- `ThreadPool::accumulate` (thread.h:127-133): a `uint64_t sum`
starting at 0, adding each thread's loaded counter with `uint64_t`
wrap-around. -/
def ThreadPool.accumulate (tp : ThreadPool) (member : ThreadCounters → Nat) : Nat :=
  tp.threads.foldl (fun sum th => (sum + member th % U64_MOD) % U64_MOD) 0

/-- `ThreadPool::nodes_searched` (thread.h:108). -/
def ThreadPool.nodes_searched (tp : ThreadPool) : Nat :=
  tp.accumulate fun th => th.nodes

/-- `ThreadPool::tb_hits` (thread.h:109). -/
def ThreadPool.tb_hits (tp : ThreadPool) : Nat :=
  tp.accumulate fun th => th.tbHits

/-- Modelled from the spec: the `Position`/move-generation/evaluation
collaborators that `Worker::search` consumes (spec section 6) — legal-move
enumeration, make-move, and static evaluation.  `Worker::search` itself is
only declared in the snapshot (search.h:157-158), so its behaviour is
modelled from spec sections 4.1 and 8. -/
structure Game (P : Type) where
  moves : P → List Move
  play : P → Move → P
  eval : P → Int

/-- Modelled from the spec: the full-window fail-soft value of a node at
the given remaining depth — the recursive search of spec section 4.1 with
the window wide open.  Depth 0 falls back to the static evaluation; a node
without legal moves is terminal and keeps its static value. -/
def negamax {P : Type} (G : Game P) : Nat → P → Int
  | 0, p => G.eval p
  | d + 1, p =>
    match G.moves p with
    | [] => G.eval p
    | m :: ms =>
      ms.foldl (fun best mv => max best (-(negamax G d (G.play p mv))))
        (-(negamax G d (G.play p m)))

/-- Fail-soft bound classification (spec section 4.1 and glossary): a
score `v` against the original window is an upper bound when `v ≤ alpha`
(fail low), a lower bound when `beta ≤ v` (fail high), exact otherwise. -/
inductive Bound where
  | lower
  | upper
  | exact
deriving DecidableEq

/-- The bound flag a completed node reports for score `v` against the
original window `[alpha, beta)`. -/
def boundOf (alpha beta v : Int) : Bound :=
  if v ≤ alpha then Bound.upper else if beta ≤ v then Bound.lower else Bound.exact

/-- Modelled from the spec: one root-move-selection step — search the
candidate and keep it when it strictly improves on the best so far. -/
def rootStep {P : Type} (G : Game P) (d : Nat) (p : P) (b : Move × Int) (mv : Move) :
    Move × Int :=
  let v := -(negamax G d (G.play p mv))
  if b.2 < v then (mv, v) else b

/-- Modelled from the spec: a depth-only-limited root search (spec
section 8): with a full window, try every root move, keep the best, and
report the move, its score, and the bound classification against the full
window.  `none` exactly when the position has no legal moves (section 7). -/
def rootSearch {P : Type} (G : Game P) (d : Nat) (p : P) : Option (Move × Int × Bound) :=
  match G.moves p with
  | [] => none
  | m :: ms =>
    let best := ms.foldl (rootStep G d p) (m, -(negamax G d (G.play p m)))
    some (best.1, best.2, boundOf (-VALUE_INFINITE) VALUE_INFINITE best.2)

/-- Modelled from the spec: the collaborator contract quiescence needs —
generation of the forcing moves only (captures/checks/promotions, spec
section 4.1), make-move, and static evaluation. -/
structure QGame (P : Type) where
  qmoves : P → List Move
  play : P → Move → P
  eval : P → Int

/-- The quiescence-depth budget: the effective depth at which the main
search hands off to quiescence; recursive quiescence calls decrease it
strictly and stop at 0 (modelled from spec section 4.1). -/
def DEPTH_QS : Nat := 7

/-- Modelled from the spec: `Worker::qsearch` (declared search.h:177-178;
its body is not in the snapshot).  Fuel-indexed so that termination is a
theorem rather than an assumption: every recursive call uses effective
depth `d - 1`, and `none` is produced only when the fuel — not the depth —
runs out.  At each node: static stand-pat bound, fail high if it meets
beta, at depth 0 stand pat, otherwise scan the forcing moves. -/
def qsearchF {P : Type} (G : QGame P) : Nat → P → Nat → Int → Int → Option Int
  | 0, _, _, _, _ => none
  | fuel + 1, p, d, alpha, beta =>
    let standPat := G.eval p
    if beta ≤ standPat then some standPat
    else if d = 0 then some (max alpha standPat)
    else
      (G.qmoves p).foldl
        (fun acc mv =>
          match acc with
          | none => none
          | some best =>
            match qsearchF G fuel (G.play p mv) (d - 1) (-beta) (-(max best alpha)) with
            | none => none
            | some v => some (max best (-v)))
        (some standPat)

/-- Modelled from the spec: the entry of the main search (spec
section 4.1): a node whose remaining depth is ≤ 0 hands off to the
quiescence search, with fuel ample for the quiescence-depth budget;
otherwise the full search body runs (abstracted as `fullSearch`, which the
termination claim does not constrain). -/
def searchM {P : Type} (G : QGame P) (fullSearch : P → Int → Int → Int → Int)
    (p : P) (alpha beta : Int) (depth : Int) : Option Int :=
  if depth ≤ 0 then qsearchF G (DEPTH_QS + 1) p DEPTH_QS alpha beta
  else some (fullSearch p alpha beta depth)

/-- Modelled from the spec: the events of a thread-pool lifetime that
touch the pool-wide `stop` flag (thread.h:114): `ThreadPool::start_thinking`
clears it when a session begins (spec section 4.4), the MainThread time
check or an external cancel raises it (sections 4.3 and 6), and every
other pool action leaves it untouched (section 5). -/
inductive PoolEvent where
  | startThinking
  | raiseStop
  | other
deriving DecidableEq

/-- The stop flag after one pool event. -/
def stepStop (stop : Bool) (e : PoolEvent) : Bool :=
  match e with
  | PoolEvent.startThinking => false
  | PoolEvent.raiseStop => true
  | PoolEvent.other => stop

/-- The stop flag after a sequence of pool events. -/
def runStop (stop : Bool) (es : List PoolEvent) : Bool :=
  es.foldl stepStop stop

/-- Modelled from the spec: the root-move list mutations of one search
session (spec section 3, RootMove lifecycle, and section 4.2): an
iteration updates a root move's score, rebuilds its PV keeping its root
move first, and re-sorts the list; raising the stop flag only makes the
search unwind early, leaving the list as the last completed update left
it. -/
inductive SearchEvent where
  | setScore (i : Nat) (s : Int)
  | setPV (i : Nat) (tail : List Move)
  | sortMoves
  | raiseStop

/-- Pointwise update of the i-th root move, as in-place mutation of
`rootMoves[i]` is. -/
def modifyAt (f : RootMove → RootMove) : Nat → List RootMove → List RootMove
  | _, [] => []
  | 0, rm :: rest => f rm :: rest
  | i + 1, rm :: rest => rm :: modifyAt f i rest

/-- One search-session event applied to the root-move list. -/
def applyEvent (rms : List RootMove) (e : SearchEvent) : List RootMove :=
  match e with
  | SearchEvent.setScore i s => modifyAt (fun rm => { rm with score := s }) i rms
  | SearchEvent.setPV i tail =>
    modifyAt
      (fun rm =>
        { rm with pv := match rm.pv with
                        | [] => []
                        | m :: _ => m :: tail })
      i rms
  | SearchEvent.sortMoves => sortRootMoves rms
  | SearchEvent.raiseStop => rms

/-- Modelled from the spec: `ThreadPool::start_thinking` (declared
thread.h:102-103; its body is not in the snapshot) assigns one `RootMove`
per legal root move (spec section 4.4), and the session then applies
search events until the caller waits for completion. -/
def runSession (legal : List Move) (es : List SearchEvent) : List RootMove :=
  es.foldl applyEvent (legal.map RootMove.ofMove)

/-- A root-move list is well formed for a set of legal root moves when its
PV is non-empty and starts with a legal move (spec sections 7 and 8). -/
def wellFormedRM (legal : List Move) (rm : RootMove) : Prop :=
  ∃ m ∈ legal, ∃ t, rm.pv = m :: t

/-- A concrete root move: high score. -/
def rmHigh : RootMove :=
  { score := 30, previousScore := 5, pv := [Move.mk 1] }

/-- A concrete root move: middle score, higher previous score. -/
def rmMid : RootMove :=
  { score := 10, previousScore := 9, pv := [Move.mk 2] }

/-- A concrete root move: same score as `rmMid`, lower previous score. -/
def rmLow : RootMove :=
  { score := 10, previousScore := 2, pv := [Move.mk 3] }

/-- A concrete root move with a two-move PV. -/
def rmP : RootMove :=
  { score := 1, pv := [Move.mk 5, Move.mk 6] }

/-- A concrete root move sharing `rmP`'s first PV move but nothing else. -/
def rmQ : RootMove :=
  { score := -7, previousScore := 3, pv := [Move.mk 5] }

/-- A concrete root move with an empty PV. -/
def rmNoPV : RootMove :=
  { pv := [] }

/-- A concrete two-thread pool. -/
def demoPool : ThreadPool :=
  { threads := [{ nodes := 100, tbHits := 3 }, { nodes := 250, tbHits := 7 }] }

/-- A concrete two-move game on positions numbered by `Nat`. -/
def toyGame : Game Nat :=
  { moves := fun p => if p < 2 then [Move.mk 1, Move.mk 2] else []
    play := fun p _ => p + 1
    eval := fun p => if p % 2 = 0 then 1 else -1 }

/-- A concrete forcing-move game on positions numbered by `Nat`. -/
def toyQGame : QGame Nat :=
  { qmoves := fun p => if p < 5 then [Move.mk 1] else []
    play := fun p _ => p + 1
    eval := fun p => if p % 2 = 0 then 1 else -1 }

/-- Concrete legal root moves for the cancellation scenario. -/
def demoLegal : List Move :=
  [Move.mk 1, Move.mk 2]

/-- A concrete session: one iteration's updates, a re-sort, then a stop. -/
def demoEvents : List SearchEvent :=
  [SearchEvent.setScore 0 10, SearchEvent.setPV 1 [Move.mk 9],
   SearchEvent.sortMoves, SearchEvent.raiseStop]

theorem rootMove_lt_true_iff (a b : RootMove) :
    RootMove.lt a b = true ↔
      (b.score < a.score ∨ (b.score = a.score ∧ b.previousScore < a.previousScore)) := by
  unfold RootMove.lt
  split <;> simp only [decide_eq_true_eq] <;> omega

theorem rootMoveLe_iff (a b : RootMove) :
    RootMoveLe a b ↔
      (b.score < a.score ∨ (a.score = b.score ∧ b.previousScore ≤ a.previousScore)) := by
  unfold RootMoveLe RootMove.lt
  split <;> simp only [decide_eq_false_iff_not] <;> omega

/-- C1, corrected.  `RootMove::operator<` is a strict weak order that
sorts in descending order: `a < b` holds exactly when `a`'s score is
higher, or the scores tie and `a`'s previous score is higher; it is
transitive and asymmetric; the stable sort it induces leaves the list
sorted under the reflexive companion relation `RootMoveLe` (descending by
score, ties by descending previous score); and sorting twice yields the
same order as sorting once.  It is not a strict *total* order on
RootMoves: RootMoves with equal scores but different moves are
incomparable (see the counterexample). -/
theorem rootMove_order_spec :
    (∀ a b : RootMove, RootMove.lt a b = true ↔
        (b.score < a.score ∨ (b.score = a.score ∧ b.previousScore < a.previousScore))) ∧
    (∀ a b c : RootMove,
        RootMove.lt a b = true → RootMove.lt b c = true → RootMove.lt a c = true) ∧
    (∀ a b : RootMove, RootMove.lt a b = true → RootMove.lt b a = false) ∧
    (∀ a b : RootMove, RootMoveLe a b ↔
        (b.score < a.score ∨ (a.score = b.score ∧ b.previousScore ≤ a.previousScore))) ∧
    (∀ l : List RootMove, List.Sorted RootMoveLe (sortRootMoves l)) ∧
    (∀ l : List RootMove, sortRootMoves (sortRootMoves l) = sortRootMoves l) := by
  refine ⟨rootMove_lt_true_iff, ?_, ?_, rootMoveLe_iff, ?_, ?_⟩
  · intro a b c hab hbc
    rw [rootMove_lt_true_iff] at hab hbc ⊢
    omega
  · intro a b hab
    rw [rootMove_lt_true_iff] at hab
    have : ¬ RootMove.lt b a = true := by
      rw [rootMove_lt_true_iff]
      omega
    exact Bool.eq_false_iff.mpr (fun hc => this hc)
  · intro l
    exact List.sorted_insertionSort RootMoveLe l
  · intro l
    exact List.Sorted.insertionSort_eq (List.sorted_insertionSort RootMoveLe l)

/-- C1, counterexample to the claim as stated: the comparison is not a
strict total order on RootMoves — two freshly constructed RootMoves for
different moves have equal scores, so neither is less than the other, yet
they are different RootMoves. -/
theorem rootMove_lt_not_total :
    RootMove.lt (RootMove.ofMove (Move.mk 1)) (RootMove.ofMove (Move.mk 2)) = false ∧
    RootMove.lt (RootMove.ofMove (Move.mk 2)) (RootMove.ofMove (Move.mk 1)) = false ∧
    RootMove.ofMove (Move.mk 1) ≠ RootMove.ofMove (Move.mk 2) := by
  refine ⟨by decide, by decide, by decide⟩

/-- C1, witness: the amended theorem applied at concrete RootMoves —
transitivity through `rmHigh < rmMid < rmLow` and idempotence of sorting a
concrete list. -/
theorem rootMove_order_spec_witness :
    RootMove.lt rmHigh rmLow = true ∧
    sortRootMoves (sortRootMoves [rmLow, rmHigh, rmMid]) =
      sortRootMoves [rmLow, rmHigh, rmMid] :=
  ⟨rootMove_order_spec.2.1 rmHigh rmMid rmLow (by decide) (by decide),
   rootMove_order_spec.2.2.2.2.2 [rmLow, rmHigh, rmMid]⟩

/-- C3.  `LimitsType::use_time_management()` returns true exactly when at
least one of the two per-color clock times is nonzero. -/
theorem use_time_management_iff (l : LimitsType) :
    l.use_time_management = true ↔
      (l.time Color.WHITE ≠ 0 ∨ l.time Color.BLACK ≠ 0) := by
  unfold LimitsType.use_time_management
  simp

/-- C8.  A RootMove constructed from a move `m` has PV exactly `[m]`, its
four score fields all equal to `-VALUE_INFINITE`, both bound flags false,
and `selDepth` and `tbRank` zero. -/
theorem rootMove_ofMove_fields (m : Move) :
    (RootMove.ofMove m).pv = [m] ∧
    (RootMove.ofMove m).score = -VALUE_INFINITE ∧
    (RootMove.ofMove m).previousScore = -VALUE_INFINITE ∧
    (RootMove.ofMove m).averageScore = -VALUE_INFINITE ∧
    (RootMove.ofMove m).uciScore = -VALUE_INFINITE ∧
    (RootMove.ofMove m).scoreLowerbound = false ∧
    (RootMove.ofMove m).scoreUpperbound = false ∧
    (RootMove.ofMove m).selDepth = 0 ∧
    (RootMove.ofMove m).tbRank = 0 :=
  ⟨rfl, rfl, rfl, rfl, rfl, rfl, rfl, rfl, rfl⟩

/-- C9.  `RootMove::operator==(Move)` depends only on the first move of
the PV: when the PV starts with `h0`, the comparison holds exactly when
`h0 = m`; two RootMoves with the same first PV move compare equally
against every move whatever their other fields; and on an empty PV the
`pv[0]` access is out of bounds (modelled as `none`), so a non-empty PV is
a required invariant. -/
theorem rootMove_eqMove_head_only :
    (∀ (rm : RootMove) (m h0 : Move), rm.pv.head? = some h0 →
        (rm.eqMove m = some true ↔ h0 = m)) ∧
    (∀ (rm1 rm2 : RootMove) (m : Move), rm1.pv.head? = rm2.pv.head? →
        rm1.eqMove m = rm2.eqMove m) ∧
    (∀ (rm : RootMove) (m : Move), rm.pv = [] → rm.eqMove m = none) := by
  refine ⟨?_, ?_, ?_⟩
  · intro rm m h0 h
    unfold RootMove.eqMove
    rw [h]
    simp
  · intro rm1 rm2 m h
    unfold RootMove.eqMove
    rw [h]
  · intro rm m h
    unfold RootMove.eqMove
    rw [h]
    rfl

/-- C9, witness: the theorem applied at concrete RootMoves — `rmP` and
`rmQ` share only their first PV move, and `rmNoPV` has an empty PV. -/
theorem rootMove_eqMove_head_only_witness :
    (rmP.eqMove (Move.mk 5) = some true ↔ Move.mk 5 = Move.mk 5) ∧
    rmP.eqMove (Move.mk 5) = rmQ.eqMove (Move.mk 5) ∧
    rmNoPV.eqMove (Move.mk 5) = none :=
  ⟨rootMove_eqMove_head_only.1 rmP (Move.mk 5) (Move.mk 5) rfl,
   rootMove_eqMove_head_only.2.1 rmP rmQ (Move.mk 5) rfl,
   rootMove_eqMove_head_only.2.2 rmNoPV (Move.mk 5) rfl⟩

/-- C10.  The default-constructed LimitsType zeroes both per-color times
and increments, `npmsec`, `movetime`, `movestogo`, `depth`, `mate`,
`perft`, `infinite` and `nodes`, leaves `searchmoves` empty and only
`startTime` unset; consequently `use_time_management()` is false on it. -/
theorem limitsType_default_fields :
    LimitsType.default.time Color.WHITE = 0 ∧
    LimitsType.default.time Color.BLACK = 0 ∧
    LimitsType.default.inc Color.WHITE = 0 ∧
    LimitsType.default.inc Color.BLACK = 0 ∧
    LimitsType.default.npmsec = 0 ∧
    LimitsType.default.movetime = 0 ∧
    LimitsType.default.movestogo = 0 ∧
    LimitsType.default.depth = 0 ∧
    LimitsType.default.mate = 0 ∧
    LimitsType.default.perft = 0 ∧
    LimitsType.default.infinite = 0 ∧
    LimitsType.default.nodes = 0 ∧
    LimitsType.default.searchmoves = [] ∧
    LimitsType.default.startTime = none ∧
    LimitsType.default.use_time_management = false :=
  ⟨rfl, rfl, rfl, rfl, rfl, rfl, rfl, rfl, rfl, rfl, rfl, rfl, rfl, rfl, rfl⟩

theorem foldl_mod_sum (M : Nat) (g : ThreadCounters → Nat) : ∀ (xs : List ThreadCounters)
    (a : Nat), xs.foldl (fun s th => (s + g th % M) % M) (a % M) = (a + (xs.map g).sum) % M := by
  intro xs
  induction xs with
  | nil =>
    intro a
    simp
  | cons th xs ih =>
    intro a
    have h1 : (a % M + g th % M) % M = (a + g th) % M := by
      conv_rhs => rw [Nat.add_mod]
    calc (th :: xs).foldl (fun s th => (s + g th % M) % M) (a % M)
        = xs.foldl (fun s th => (s + g th % M) % M) ((a % M + g th % M) % M) := rfl
      _ = xs.foldl (fun s th => (s + g th % M) % M) ((a + g th) % M) := by rw [h1]
      _ = ((a + g th) + (xs.map g).sum) % M := ih (a + g th)
      _ = (a + ((th :: xs).map g).sum) % M := by
            rw [List.map_cons, List.sum_cons, Nat.add_assoc]

theorem accumulate_eq_sum_mod (tp : ThreadPool) (member : ThreadCounters → Nat) :
    tp.accumulate member = (tp.threads.map member).sum % U64_MOD := by
  unfold ThreadPool.accumulate
  have h0 : (0 : Nat) = 0 % U64_MOD := by
    simp [U64_MOD]
  rw [h0, foldl_mod_sum U64_MOD member tp.threads 0]
  simp

/-- C4.  `ThreadPool::nodes_searched()` equals the sum over all threads of
that thread's nodes counter, and `tb_hits()` the sum of the tbHits
counters — as `uint64_t` sums, i.e. modulo `2^64`, and exactly the plain
sums whenever they fit in 64 bits.  (That the per-thread counters are
relaxed atomics read without locking is a concurrency discipline the
sequential embedding does not capture.) -/
theorem pool_counters_sum :
    (∀ tp : ThreadPool,
        tp.nodes_searched = (tp.threads.map (fun th => th.nodes)).sum % U64_MOD) ∧
    (∀ tp : ThreadPool,
        tp.tb_hits = (tp.threads.map (fun th => th.tbHits)).sum % U64_MOD) ∧
    (∀ tp : ThreadPool, (tp.threads.map (fun th => th.nodes)).sum < U64_MOD →
        tp.nodes_searched = (tp.threads.map (fun th => th.nodes)).sum) ∧
    (∀ tp : ThreadPool, (tp.threads.map (fun th => th.tbHits)).sum < U64_MOD →
        tp.tb_hits = (tp.threads.map (fun th => th.tbHits)).sum) := by
  refine ⟨?_, ?_, ?_, ?_⟩
  · intro tp
    exact accumulate_eq_sum_mod tp _
  · intro tp
    exact accumulate_eq_sum_mod tp _
  · intro tp h
    unfold ThreadPool.nodes_searched
    rw [accumulate_eq_sum_mod tp _]
    exact Nat.mod_eq_of_lt h
  · intro tp h
    unfold ThreadPool.tb_hits
    rw [accumulate_eq_sum_mod tp _]
    exact Nat.mod_eq_of_lt h

/-- C4, witness: the theorem applied at a concrete two-thread pool whose
counter sums fit in 64 bits. -/
theorem pool_counters_sum_witness :
    demoPool.nodes_searched = (demoPool.threads.map (fun th => th.nodes)).sum ∧
    demoPool.tb_hits = (demoPool.threads.map (fun th => th.tbHits)).sum :=
  ⟨pool_counters_sum.2.2.1 demoPool (by decide),
   pool_counters_sum.2.2.2 demoPool (by decide)⟩

theorem runStop_true_of_not_mem :
    ∀ es : List PoolEvent, PoolEvent.startThinking ∉ es → runStop true es = true := by
  intro es
  induction es with
  | nil =>
    intro _
    rfl
  | cons e es ih =>
    intro h
    have he : e ≠ PoolEvent.startThinking := fun hc => h (hc ▸ List.mem_cons_self e es)
    have hes : PoolEvent.startThinking ∉ es := fun hc => h (List.mem_cons_of_mem e hc)
    have hstep : stepStop true e = true := by
      cases e with
      | startThinking => exact absurd rfl he
      | raiseStop => rfl
      | other => rfl
    calc runStop true (e :: es) = runStop (stepStop true e) es := rfl
      _ = runStop true es := by rw [hstep]
      _ = true := ih hes

/-- C6.  The pool-wide stop flag is monotone within one search session:
`start_thinking` clears it; no other event ever turns it from true back to
false; once true it stays true across any event sequence free of
`start_thinking`; and in any session — the events between a `raiseStop`
and the next `start_thinking` — the flag reads true. -/
theorem stop_flag_monotone :
    (∀ b : Bool, stepStop b PoolEvent.startThinking = false) ∧
    (∀ (b : Bool) (e : PoolEvent), e ≠ PoolEvent.startThinking →
        stepStop b e = b ∨ stepStop b e = true) ∧
    (∀ es : List PoolEvent, PoolEvent.startThinking ∉ es → runStop true es = true) ∧
    (∀ (b : Bool) (es1 es2 : List PoolEvent), PoolEvent.startThinking ∉ es2 →
        runStop b (es1 ++ PoolEvent.raiseStop :: es2) = true) := by
  refine ⟨fun _ => rfl, ?_, runStop_true_of_not_mem, ?_⟩
  · intro b e he
    cases e with
    | startThinking => exact absurd rfl he
    | raiseStop => exact Or.inr rfl
    | other => exact Or.inl rfl
  · intro b es1 es2 h
    unfold runStop
    rw [List.foldl_append]
    calc (PoolEvent.raiseStop :: es2).foldl stepStop (es1.foldl stepStop b)
        = es2.foldl stepStop (stepStop (es1.foldl stepStop b) PoolEvent.raiseStop) := rfl
      _ = es2.foldl stepStop true := rfl
      _ = true := runStop_true_of_not_mem es2 h

/-- C6, witness: the theorem applied at a concrete session — the flag is
cleared by `start_thinking`, a non-clearing event never resets it, it
stays true over a concrete `start_thinking`-free tail, and a concrete
session trace with a stop in the middle ends with the flag true. -/
theorem stop_flag_monotone_witness :
    stepStop true PoolEvent.startThinking = false ∧
    (stepStop false PoolEvent.other = false ∨ stepStop false PoolEvent.other = true) ∧
    runStop true [PoolEvent.other, PoolEvent.raiseStop] = true ∧
    runStop false ([PoolEvent.other] ++ PoolEvent.raiseStop :: [PoolEvent.other]) = true :=
  ⟨stop_flag_monotone.1 true,
   stop_flag_monotone.2.1 false PoolEvent.other (by decide),
   stop_flag_monotone.2.2.1 [PoolEvent.other, PoolEvent.raiseStop] (by decide),
   stop_flag_monotone.2.2.2 false [PoolEvent.other] [PoolEvent.other] (by decide)⟩

theorem foldl_negmax_bounds {P : Type} (G : Game P) (d : Nat) (p : P)
    (hrec : ∀ q, -VALUE_INFINITE < negamax G d q ∧ negamax G d q < VALUE_INFINITE) :
    ∀ (ms : List Move) (init : Int), -VALUE_INFINITE < init → init < VALUE_INFINITE →
      -VALUE_INFINITE <
          ms.foldl (fun best mv => max best (-(negamax G d (G.play p mv)))) init ∧
      ms.foldl (fun best mv => max best (-(negamax G d (G.play p mv)))) init <
        VALUE_INFINITE := by
  intro ms
  induction ms with
  | nil =>
    intro init h1 h2
    exact ⟨h1, h2⟩
  | cons mv ms ih =>
    intro init h1 h2
    have hq := hrec (G.play p mv)
    have hmax1 : -VALUE_INFINITE < max init (-(negamax G d (G.play p mv))) :=
      lt_max_of_lt_left h1
    have hmax2 : max init (-(negamax G d (G.play p mv))) < VALUE_INFINITE :=
      max_lt h2 (by omega)
    exact ih _ hmax1 hmax2

theorem negamax_bounds {P : Type} (G : Game P)
    (heval : ∀ q, -VALUE_INFINITE < G.eval q ∧ G.eval q < VALUE_INFINITE) :
    ∀ (d : Nat) (p : P),
      -VALUE_INFINITE < negamax G d p ∧ negamax G d p < VALUE_INFINITE := by
  intro d
  induction d with
  | zero =>
    intro p
    exact heval p
  | succ d ih =>
    intro p
    show -VALUE_INFINITE < negamax G (d + 1) p ∧ negamax G (d + 1) p < VALUE_INFINITE
    rcases h : G.moves p with _ | ⟨m, ms⟩
    · simp only [negamax, h]
      exact heval p
    · simp only [negamax, h]
      have hinit := ih (G.play p m)
      exact foldl_negmax_bounds G d p ih ms (-(negamax G d (G.play p m)))
        (by omega) (by omega)

theorem rootFold_inv {P : Type} (G : Game P) (d : Nat) (p : P) (S : List Move)
    (hrec : ∀ q, -VALUE_INFINITE < negamax G d q ∧ negamax G d q < VALUE_INFINITE) :
    ∀ (ms : List Move) (b : Move × Int), (∀ mv ∈ ms, mv ∈ S) → b.1 ∈ S →
      -VALUE_INFINITE < b.2 → b.2 < VALUE_INFINITE →
      (ms.foldl (rootStep G d p) b).1 ∈ S ∧
      -VALUE_INFINITE < (ms.foldl (rootStep G d p) b).2 ∧
      (ms.foldl (rootStep G d p) b).2 < VALUE_INFINITE := by
  intro ms
  induction ms with
  | nil =>
    intro b _ hb h1 h2
    exact ⟨hb, h1, h2⟩
  | cons mv ms ih =>
    intro b hms hb h1 h2
    have hmv : mv ∈ S := hms mv (List.mem_cons_self mv ms)
    have hms' : ∀ x ∈ ms, x ∈ S := fun x hx => hms x (List.mem_cons_of_mem mv hx)
    have hq := hrec (G.play p mv)
    rw [List.foldl_cons]
    unfold rootStep
    dsimp only
    split
    · exact ih (mv, -(negamax G d (G.play p mv))) hms' hmv (by omega) (by omega)
    · exact ih b hms' hb h1 h2

theorem boundOf_eq_exact (alpha beta v : Int) (h1 : alpha < v) (h2 : v < beta) :
    boundOf alpha beta v = Bound.exact := by
  unfold boundOf
  rw [if_neg (by omega), if_neg (by omega)]

/-- C2, spec-modelled.  For every game position with at least one legal
move, the depth-only-limited root search returns a move that is legal in
that position, and — the window being the full `(-VALUE_INFINITE,
VALUE_INFINITE)` one, as it is for depths below the aspiration threshold —
the returned score's bound flag is exact, provided the static evaluation
stays strictly inside the value range as the evaluation collaborator
guarantees. -/
theorem rootSearch_legal_and_exact {P : Type} (G : Game P) (d : Nat) (p : P)
    (heval : ∀ q, -VALUE_INFINITE < G.eval q ∧ G.eval q < VALUE_INFINITE)
    (hmoves : G.moves p ≠ []) :
    ∃ m v, rootSearch G d p = some (m, v, Bound.exact) ∧ m ∈ G.moves p := by
  rcases h : G.moves p with _ | ⟨m, ms⟩
  · exact absurd h hmoves
  · have hrec := negamax_bounds G heval d
    have hinit := hrec (G.play p m)
    have hmem : m ∈ m :: ms := List.mem_cons_self m ms
    have hsub : ∀ mv ∈ ms, mv ∈ m :: ms := fun mv hmv => List.mem_cons_of_mem m hmv
    obtain ⟨hbm, hb1, hb2⟩ := rootFold_inv G d p (m :: ms) hrec ms
      (m, -(negamax G d (G.play p m))) hsub hmem (by omega) (by omega)
    refine ⟨(ms.foldl (rootStep G d p) (m, -(negamax G d (G.play p m)))).1,
      (ms.foldl (rootStep G d p) (m, -(negamax G d (G.play p m)))).2, ?_, hbm⟩
    simp only [rootSearch, h]
    rw [boundOf_eq_exact _ _ _ hb1 hb2]

/-- C2, witness: the theorem applied to a concrete game at a position with
two legal moves and a bounded evaluation, at depth 3. -/
theorem rootSearch_legal_and_exact_witness :
    ∃ m v, rootSearch toyGame 3 0 = some (m, v, Bound.exact) ∧ m ∈ toyGame.moves 0 :=
  rootSearch_legal_and_exact toyGame 3 0
    (fun q => by
      by_cases hq : q % 2 = 0 <;> simp [toyGame, hq] <;> decide)
    (by decide)

theorem qfold_isSome {P : Type} (G : QGame P) (fuel : Nat)
    (hIH : ∀ (d : Nat) (p : P) (alpha beta : Int), d < fuel →
      (qsearchF G fuel p d alpha beta).isSome = true)
    (p : P) (d : Nat) (alpha beta : Int) (hd : d - 1 < fuel) :
    ∀ (ms : List Move) (acc : Option Int), acc.isSome = true →
      (ms.foldl
        (fun acc mv =>
          match acc with
          | none => none
          | some best =>
            match qsearchF G fuel (G.play p mv) (d - 1) (-beta) (-(max best alpha)) with
            | none => none
            | some v => some (max best (-v)))
        acc).isSome = true := by
  intro ms
  induction ms with
  | nil =>
    intro acc h
    exact h
  | cons mv ms ih =>
    intro acc h
    rcases acc with _ | best
    · simp at h
    · have hrec := hIH (d - 1) (G.play p mv) (-beta) (-(max best alpha)) hd
      rcases hq : qsearchF G fuel (G.play p mv) (d - 1) (-beta) (-(max best alpha))
        with _ | v
      · rw [hq] at hrec
        simp at hrec
      · rw [List.foldl_cons]
        refine ih _ ?_
        dsimp only
        rw [hq]
        rfl

/-- Spec-modelled quiescence termination: with fuel exceeding the
effective depth, the fuel never runs out — every recursive call decreases
the effective depth, so the recursion bottoms out at depth 0 first. -/
theorem qsearchF_isSome {P : Type} (G : QGame P) :
    ∀ (fuel d : Nat) (p : P) (alpha beta : Int), d < fuel →
      (qsearchF G fuel p d alpha beta).isSome = true := by
  intro fuel
  induction fuel with
  | zero =>
    intro d p alpha beta h
    exact absurd h (Nat.not_lt_zero d)
  | succ fuel ih =>
    intro d p alpha beta h
    rw [qsearchF]
    split
    · rfl
    · split
      · rfl
      · exact qfold_isSome G fuel ih p d alpha beta (by omega) (G.qmoves p)
          (some (G.eval p)) rfl

/-- C5, spec-modelled.  A search node whose remaining depth is ≤ 0 hands
off to the quiescence search, and quiescence always terminates: each
recursive quiescence call uses a strictly smaller effective depth, so with
fuel exceeding the starting effective depth the fuel is never exhausted —
in particular the hand-off itself always produces a value. -/
theorem qsearch_handoff_terminates :
    (∀ (P : Type) (G : QGame P) (fullSearch : P → Int → Int → Int → Int) (p : P)
        (alpha beta depth : Int), depth ≤ 0 →
        searchM G fullSearch p alpha beta depth =
          qsearchF G (DEPTH_QS + 1) p DEPTH_QS alpha beta) ∧
    (∀ (P : Type) (G : QGame P) (fuel d : Nat) (p : P) (alpha beta : Int), d < fuel →
        (qsearchF G fuel p d alpha beta).isSome = true) ∧
    (∀ (P : Type) (G : QGame P) (fullSearch : P → Int → Int → Int → Int) (p : P)
        (alpha beta depth : Int), depth ≤ 0 →
        (searchM G fullSearch p alpha beta depth).isSome = true) := by
  refine ⟨?_, ?_, ?_⟩
  · intro P G fs p alpha beta depth h
    unfold searchM
    rw [if_pos h]
  · intro P G fuel d p alpha beta h
    exact qsearchF_isSome G fuel d p alpha beta h
  · intro P G fs p alpha beta depth h
    unfold searchM
    rw [if_pos h]
    exact qsearchF_isSome G (DEPTH_QS + 1) DEPTH_QS p alpha beta (Nat.lt_succ_self _)

/-- C5, witness: the theorem applied to a concrete forcing-move game —
the hand-off equation at depth 0 and termination of the quiescence search
it hands off to. -/
theorem qsearch_handoff_terminates_witness :
    searchM toyQGame (fun _ _ _ _ => 0) 0 (-50) 50 0 =
      qsearchF toyQGame (DEPTH_QS + 1) 0 DEPTH_QS (-50) 50 ∧
    (qsearchF toyQGame (DEPTH_QS + 1) 0 DEPTH_QS (-50) 50).isSome = true :=
  ⟨qsearch_handoff_terminates.1 Nat toyQGame (fun _ _ _ _ => 0) 0 (-50) 50 0 (by decide),
   qsearch_handoff_terminates.2.1 Nat toyQGame (DEPTH_QS + 1) DEPTH_QS 0 (-50) 50
     (by decide)⟩

theorem modifyAt_pres {Q : RootMove → Prop} (f : RootMove → RootMove)
    (hf : ∀ rm, Q rm → Q (f rm)) :
    ∀ (i : Nat) (l : List RootMove), (∀ rm ∈ l, Q rm) → ∀ rm ∈ modifyAt f i l, Q rm := by
  intro i l
  induction l generalizing i with
  | nil =>
    intro h rm hrm
    cases i <;> simp [modifyAt] at hrm
  | cons x xs ih =>
    intro h rm hrm
    have hx : Q x := h x (List.mem_cons_self x xs)
    have hxs : ∀ rm ∈ xs, Q rm := fun rm hr => h rm (List.mem_cons_of_mem x hr)
    cases i with
    | zero =>
      simp only [modifyAt, List.mem_cons] at hrm
      rcases hrm with rfl | hrm
      · exact hf x hx
      · exact hxs rm hrm
    | succ i =>
      simp only [modifyAt, List.mem_cons] at hrm
      rcases hrm with rfl | hrm
      · exact hx
      · exact ih i hxs rm hrm

theorem modifyAt_ne_nil (f : RootMove → RootMove) (i : Nat) (l : List RootMove)
    (h : l ≠ []) : modifyAt f i l ≠ [] := by
  cases l with
  | nil => exact absurd rfl h
  | cons x xs => cases i <;> simp [modifyAt]

theorem applyEvent_inv (legal : List Move) (rms : List RootMove) (e : SearchEvent)
    (h1 : rms ≠ []) (h2 : ∀ rm ∈ rms, wellFormedRM legal rm) :
    applyEvent rms e ≠ [] ∧ ∀ rm ∈ applyEvent rms e, wellFormedRM legal rm := by
  cases e with
  | setScore i s =>
    refine ⟨modifyAt_ne_nil _ i rms h1, ?_⟩
    refine modifyAt_pres _ ?_ i rms h2
    intro rm hrm
    obtain ⟨m, hm, t, ht⟩ := hrm
    exact ⟨m, hm, t, ht⟩
  | setPV i tail =>
    refine ⟨modifyAt_ne_nil _ i rms h1, ?_⟩
    refine modifyAt_pres _ ?_ i rms h2
    intro rm hrm
    obtain ⟨m, hm, t, ht⟩ := hrm
    refine ⟨m, hm, tail, ?_⟩
    show (match rm.pv with | [] => [] | m :: _ => m :: tail) = m :: tail
    rw [ht]
  | sortMoves =>
    constructor
    · intro hc
      apply h1
      have hc' : List.insertionSort RootMoveLe rms = [] := hc
      have hlen : rms.length = 0 := by
        have := List.length_insertionSort RootMoveLe rms
        rw [hc'] at this
        simpa using this.symm
      exact List.length_eq_zero.mp hlen
    · intro rm hrm
      exact h2 rm ((List.mem_insertionSort RootMoveLe).mp hrm)
  | raiseStop => exact ⟨h1, h2⟩

theorem foldl_applyEvent_inv (legal : List Move) :
    ∀ (es : List SearchEvent) (rms : List RootMove), rms ≠ [] →
      (∀ rm ∈ rms, wellFormedRM legal rm) →
      es.foldl applyEvent rms ≠ [] ∧
        ∀ rm ∈ es.foldl applyEvent rms, wellFormedRM legal rm := by
  intro es
  induction es with
  | nil =>
    intro rms h1 h2
    exact ⟨h1, h2⟩
  | cons e es ih =>
    intro rms h1 h2
    have h' := applyEvent_inv legal rms e h1 h2
    exact ih (applyEvent rms e) h'.1 h'.2

/-- C7, spec-modelled.  For a position with at least one legal root move,
whatever sequence of search-session events occurs — score updates, PV
rebuilds, re-sorts, and a stop raised at any point — the final root-move
list has a first entry whose PV is non-empty and starts with a legal
move: the best result found so far, never a partial or corrupt move. -/
theorem cancellation_best_move_wellformed (legal : List Move) (es : List SearchEvent)
    (h : legal ≠ []) :
    ∃ best rest, runSession legal es = best :: rest ∧
      ∃ m ∈ legal, ∃ t, best.pv = m :: t := by
  have hinit1 : legal.map RootMove.ofMove ≠ [] := by
    intro hc
    exact h (List.map_eq_nil_iff.mp hc)
  have hinit2 : ∀ rm ∈ legal.map RootMove.ofMove, wellFormedRM legal rm := by
    intro rm hrm
    obtain ⟨m, hm, rfl⟩ := List.mem_map.mp hrm
    exact ⟨m, hm, [], rfl⟩
  obtain ⟨hne, hwf⟩ := foldl_applyEvent_inv legal es (legal.map RootMove.ofMove)
    hinit1 hinit2
  rcases hrun : runSession legal es with _ | ⟨best, rest⟩
  · exact absurd hrun hne
  · refine ⟨best, rest, rfl, ?_⟩
    have hbest : best ∈ runSession legal es := by
      rw [hrun]
      exact List.mem_cons_self best rest
    exact hwf best hbest

/-- C7, witness: the theorem applied to a concrete two-move position and a
concrete session trace that updates, re-sorts, and then stops. -/
theorem cancellation_best_move_wellformed_witness :
    ∃ best rest, runSession demoLegal demoEvents = best :: rest ∧
      ∃ m ∈ demoLegal, ∃ t, best.pv = m :: t :=
  cancellation_best_move_wellformed demoLegal demoEvents (by decide)

end Stockfish
